import Mathlib

/-!
Verification development for the CBF→EDF batch-conversion tutorial notebook
(`doc/source/tutorials/convert_CBF.ipynb`).

The notebook's code cells are, in order:

```python
  files = glob.glob("*.cbf")
  files.sort()
  print("Number of files: %s" % len(files))

  dest_format = "edf"
  dest_dir = "edf_format"

  if not os.path.exists(dest_dir):   # fabio and os are imported just before
      os.makedirs(dest_dir)

  for onefile in files:
      dst_name = os.path.join(dest_dir, os.path.splitext(onefile)[0] + "." + dest_format)
      fabio.open(onefile).convert(dest_format).save(dst_name)

  print("The overall speed is %.1f frame/second"%(len(files)/5.64))
  ```

We embed this script shallowly:

* strings are Lean `String`s; Python's string comparison (lexicographic by
  code point) is `lexLe` below, and `files.sort()` is the insertion sort
  `sortStrings`;
* `glob.glob("*.cbf")` over the working directory is modelled by filtering a
  list of directory-entry names: a name matches iff it ends in `".cbf"` and is
  not hidden (glob never matches names starting with `'.'` for a pattern that
  does not start with `'.'`); names containing `'/'` are not entries of the
  scanned directory;
* `os.path.splitext` and `os.path.join` are transcribed from CPython's
  `posixpath` implementation;
* the run itself is modelled twice: as an event trace (`run`), recording the
  `print`/`os.path.exists`/`os.makedirs`/`open`/`convert`/`save` calls in
  order, with the fabio codec abstracted as a per-file `Outcome`; and as a
  function on an association-list filesystem (`runDisk`), with the codec
  abstracted as a deterministic content transformer.
* the float literal `5.64` and the float division in the final print are
  modelled exactly in `ℚ`; the claims about the speed line concern which
  quantities are divided, not rounding of the decimal rendering.
-/

namespace FabioConvert

/-- Python's lexicographic (code-point) comparison `s1 <= s2` on lists of
characters, as a boolean. -/
def lexLe : List Char → List Char → Bool
  | [], _ => true
  | _ :: _, [] => false
  | a :: as, b :: bs =>
    if a < b then true
    else if b < a then false
    else lexLe as bs

/-- Python's `s1 <= s2` on strings. -/
def strLe (a b : String) : Bool := lexLe a.data b.data

/-- Insert a string into a (sorted) list, before the first element it is `≤`.
This is the inner step of the model of `list.sort()`. -/
def insertSorted (x : String) : List String → List String
  | [] => [x]
  | y :: ys => if strLe x y then x :: y :: ys else y :: insertSorted x ys

/-- Model of Python's `files.sort()`: sort by the code-point lexicographic
order.  (Any correct sort computes the same list, so insertion sort is a
faithful model of CPython's stable sort here.) -/
def sortStrings : List String → List String
  | [] => []
  | x :: xs => insertSorted x (sortStrings xs)

/-- Index of the last occurrence of `c`, CPython's `str.rfind` (as an
`Option` instead of `-1` for absence). -/
def rfindIdx (c : Char) : List Char → Option Nat
  | [] => none
  | a :: as =>
    match rfindIdx c as with
    | some i => some (i + 1)
    | none => if a = c then some 0 else none

/-- The index at which `posixpath.splitext` splits `l`, if any: the index of
the last dot, provided it lies after the last separator and at least one
character of the final path component before it is not a dot (leading dots of
a component never start an extension). Transcribed from CPython's
`genericpath._splitext`. -/
def splitextIdx (l : List Char) : Option Nat :=
  let sepIdx : Int :=
    match rfindIdx '/' l with
    | some i => (i : Int)
    | none => -1
  match rfindIdx '.' l with
  | none => none
  | some dotIdx =>
    if sepIdx < (dotIdx : Int) then
      let start := (sepIdx + 1).toNat
      if ((l.drop start).take (dotIdx - start)).any (fun ch => ch ≠ '.') then
        some dotIdx
      else none
    else none

/-- `os.path.splitext(p)[0]`: the path with its extension removed. -/
def splitextRoot (p : String) : String :=
  match splitextIdx p.data with
  | some i => ⟨p.data.take i⟩
  | none => p

/-- `os.path.splitext(p)[1]`: the extension (with its dot), or `""`. -/
def splitextExt (p : String) : String :=
  match splitextIdx p.data with
  | some i => ⟨p.data.drop i⟩
  | none => ""

/-- `os.path.join(a, b)` for two components, transcribed from CPython's
`posixpath.join`. -/
def pathJoin (a b : String) : String :=
  if b.data.head? = some '/' then b
  else if a.data = [] ∨ a.data.getLast? = some '/' then a ++ b
  else a ++ "/" ++ b

/-- The loop body's destination path:
`os.path.join(dest_dir, os.path.splitext(onefile)[0] + "." + dest_format)`. -/
def dst_name (dd df onefile : String) : String :=
  pathJoin dd (splitextRoot onefile ++ "." ++ df)

/-- The notebook's constant `dest_format = "edf"`. -/
def dest_format : String := "edf"

/-- The notebook's constant `dest_dir = "edf_format"`. -/
def dest_dir : String := "edf_format"

/-- From the spec's words (for claim C3): the destination path is "computed
deterministically from the source file's base name (extension stripped) joined
with a target directory and a target format's canonical extension". For a name
in the scanned directory (separator-free) the base name is the name itself. -/
def specDestinationPath (dd df f : String) : String :=
  dd ++ "/" ++ splitextRoot f ++ "." ++ df

/-- Eighteen source-file names, the file count of the notebook's recorded
execution (`Number of files: 18`). -/
def cbfEntries18 : List String :=
  ["f01.cbf", "f02.cbf", "f03.cbf", "f04.cbf", "f05.cbf", "f06.cbf",
   "f07.cbf", "f08.cbf", "f09.cbf", "f10.cbf", "f11.cbf", "f12.cbf",
   "f13.cbf", "f14.cbf", "f15.cbf", "f16.cbf", "f17.cbf", "f18.cbf"]

/-- Whether a directory-entry name is matched by `glob.glob("*.cbf")`: it must
end in `".cbf"`, must not be hidden (no leading `'.'`), and a name containing a
separator is not an entry of the scanned directory at all. -/
def matchesStarCbf (n : String) : Bool :=
  decide (n.data.drop (n.data.length - 4) = ".cbf".data) &&
  decide (n.data.head? ≠ some '.') &&
  decide ('/' ∉ n.data)

/-- Cell 1 of the notebook: `files = glob.glob("*.cbf"); files.sort()`.
`glob` may return the matches in any order; the subsequent `sort()` makes the
result independent of that order. -/
def discover (entries : List String) : List String :=
  sortStrings (entries.filter matchesStarCbf)

/-- The result of one `fabio.open(f).convert(df).save(dst)` chain for one
file: either the whole chain succeeds, or one of the three calls raises. The
codec is external to the script, so it enters the model as a parameter of
type `String → Outcome`. -/
inductive Outcome where
  | ok
  | failAtOpen
  | failAtConvert
  | failAtSave
deriving DecidableEq

/-- Observable actions of the script, in program order. -/
inductive Event where
  | printCount (n : Nat)
  | existsCheck (p : String) (result : Bool)
  | makedirs (p : String)
  | openFile (p : String)
  | convert (fmt : String)
  | save (p : String)
  | printSpeed (v : ℚ)
deriving DecidableEq

/-- The calls issued while processing a single file, up to the first one that
raises. -/
def fileTrace (dd df f : String) : Outcome → List Event
  | .ok => [.openFile f, .convert df, .save (dst_name dd df f)]
  | .failAtOpen => [.openFile f]
  | .failAtConvert => [.openFile f, .convert df]
  | .failAtSave => [.openFile f, .convert df, .save (dst_name dd df f)]

/-- The conversion loop's trace: files are processed in list order; the first
file whose chain raises terminates the loop (the notebook has no try/except),
so no later file is touched. -/
def loopTrace (dd df : String) (outcome : String → Outcome) : List String → List Event
  | [] => []
  | f :: fs =>
    if outcome f = .ok then fileTrace dd df f .ok ++ loopTrace dd df outcome fs
    else fileTrace dd df f (outcome f)

/-- The destination files completely written by the loop, in order. A file
whose chain raises (even inside `save`) contributes no completed output. -/
def loopOutputs (dd df : String) (outcome : String → Outcome) : List String → List String
  | [] => []
  | f :: fs =>
    if outcome f = .ok then dst_name dd df f :: loopOutputs dd df outcome fs
    else []

/-- Whether the loop runs to completion (no file's chain raises). -/
def loopCompleted (outcome : String → Outcome) : List String → Bool
  | [] => true
  | f :: fs => outcome f = .ok && loopCompleted outcome fs

/-- What `os.path.exists(dest_dir)` can find at the destination path: nothing,
a regular file, or a directory. `os.path.exists` returns `True` for both kinds
of entry. -/
inductive DestEntry where
  | absent
  | file
  | dir
deriving DecidableEq

/-- The result of `os.path.exists(dest_dir)`. -/
def osPathExists : DestEntry → Bool
  | .absent => false
  | .file => true
  | .dir => true

/-- The denominator of the final print: the hard-coded literal `5.64`. -/
def hardcodedSeconds : ℚ := 564 / 100

/-- The value printed by `len(files)/5.64`. -/
def printedSpeed (n : Nat) : ℚ := (n : ℚ) / hardcodedSeconds

/-- The observable outcome of executing the notebook top to bottom. -/
structure RunResult where
  countPrinted : Nat
  trace : List Event
  outputs : List String
  completed : Bool
  speedPrinted : Option ℚ
deriving DecidableEq

/-- Executing the notebook's cells in order: glob + sort + count print, the
`os.path.exists`/`os.makedirs` guard, the conversion loop, and — only if the
loop did not raise — the speed print. An uncaught exception in the loop stops
execution, so nothing after the loop runs in that case. -/
def run (dd df : String) (entries : List String) (dest : DestEntry)
    (outcome : String → Outcome) : RunResult :=
  let files := discover entries
  let dirEvents : List Event :=
    Event.existsCheck dd (osPathExists dest) ::
      (if osPathExists dest then [] else [Event.makedirs dd])
  let comp := loopCompleted outcome files
  { countPrinted := files.length
    trace := Event.printCount files.length :: dirEvents ++ loopTrace dd df outcome files ++
      (if comp then [Event.printSpeed (printedSpeed files.length)] else [])
    outputs := loopOutputs dd df outcome files
    completed := comp
    speedPrinted := if comp then some (printedSpeed files.length) else none }

/-- The files opened (in order) along a trace. -/
def openedFiles (es : List Event) : List String :=
  es.filterMap fun e =>
    match e with
    | .openFile f => some f
    | _ => none

/-! ### Filesystem view of the run

For the claims about on-disk results (idempotence, the file set being fixed),
the working tree is an association list from (relative) paths to file
contents.  The codec chain `fabio.open(f).convert("edf").save(dst)` becomes:
read the content at `f`, transform it with a deterministic external function
`cc`, and write the result at `dst`, overwriting. -/

/-- The filesystem: relative path ↦ content. -/
abbrev Disk := List (String × String)

/-- Write `c` at path `p`, overwriting an existing entry and appending a new
one otherwise. -/
def diskWrite (d : Disk) (p c : String) : Disk :=
  if d.any (fun e => e.1 = p) then
    d.map (fun e => if e.1 = p then (p, c) else e)
  else
    d ++ [(p, c)]

/-- The paths present on the disk. -/
def diskPaths (d : Disk) : List String := d.map Prod.fst

/-- Read the content stored at path `p` (first entry with that key). -/
def diskLookup (p : String) : Disk → Option String
  | [] => none
  | e :: es => if e.1 = p then some e.2 else diskLookup p es

/-- Cell 1 evaluated against the disk: glob the working tree and sort. -/
def discoverDisk (d : Disk) : List String := discover (diskPaths d)

/-- One iteration of the conversion loop against the disk, also recording the
file read and the write performed. The state is
(files read so far, writes performed so far, disk). -/
def diskStep (cc : String → String) (st : List String × List (String × String) × Disk)
    (f : String) : List String × List (String × String) × Disk :=
  let dst := dst_name dest_dir dest_format f
  let content := cc ((diskLookup f st.2.2).getD "")
  (st.1 ++ [f], st.2.1 ++ [(dst, content)], diskWrite st.2.2 dst content)

/-- The whole conversion loop against the disk (with the notebook's constant
`dest_dir`/`dest_format`), when every chain succeeds. -/
def runDiskFull (cc : String → String) (d : Disk) :
    List String × List (String × String) × Disk :=
  (discoverDisk d).foldl (diskStep cc) ([], [], d)

/-- The disk after a complete run. -/
def runDisk (cc : String → String) (d : Disk) : Disk := (runDiskFull cc d).2.2

/-- The source files read during a run, in order. -/
def runReads (cc : String → String) (d : Disk) : List String := (runDiskFull cc d).1

/-- The (path, content) writes performed during a run, in order. -/
def runWrites (cc : String → String) (d : Disk) : List (String × String) :=
  (runDiskFull cc d).2.1

/-! ### The boolean comparison agrees with the lexicographic order -/

theorem lexLe_iff : ∀ l₁ l₂ : List Char, lexLe l₁ l₂ = true ↔ ¬ List.Lex (· < ·) l₂ l₁
  | [], l₂ => by
    refine iff_of_true rfl fun h => ?_
    cases h
  | a :: as, [] => by
    refine iff_of_false (by simp [lexLe]) (not_not.mpr List.Lex.nil)
  | a :: as, b :: bs => by
    simp only [lexLe]
    by_cases hab : a < b
    · refine iff_of_true (by rw [if_pos hab]) fun h => ?_
      cases h with
      | rel h => exact absurd hab (lt_asymm h)
      | cons _ => exact lt_irrefl a hab
    · rw [if_neg hab]
      by_cases hba : b < a
      · refine iff_of_false (by simp [hba]) (not_not.mpr (List.Lex.rel hba))
      · rw [if_neg hba]
        have hb : a = b := le_antisymm (not_lt.mp hba) (not_lt.mp hab)
        subst hb
        rw [lexLe_iff as bs]
        constructor
        · intro h hlt
          cases hlt with
          | rel h' => exact lt_irrefl a h'
          | cons h' => exact h h'
        · intro h hlt
          exact h (List.Lex.cons hlt)

theorem strLe_iff (a b : String) : strLe a b = true ↔ a ≤ b := by
  rw [← not_lt, String.lt_iff_toList_lt]
  exact lexLe_iff a.data b.data

/-! ### The sort model really sorts -/

theorem mem_insertSorted {z x : String} : ∀ {l : List String},
    z ∈ insertSorted x l ↔ z = x ∨ z ∈ l
  | [] => by simp [insertSorted]
  | y :: ys => by
    simp only [insertSorted]
    by_cases h : strLe x y
    · simp [h]
    · simp only [if_neg h, List.mem_cons, mem_insertSorted (l := ys)]
      tauto

theorem perm_insertSorted (x : String) : ∀ l : List String, List.Perm (insertSorted x l) (x :: l)
  | [] => by simp [insertSorted]
  | y :: ys => by
    simp only [insertSorted]
    by_cases h : strLe x y
    · rw [if_pos h]
    · rw [if_neg h]
      exact ((perm_insertSorted x ys).cons y).trans (List.Perm.swap x y ys)

theorem perm_sortStrings : ∀ l : List String, List.Perm (sortStrings l) l
  | [] => List.Perm.refl _
  | x :: xs => by
    simpa [sortStrings] using (perm_insertSorted x (sortStrings xs)).trans
      ((perm_sortStrings xs).cons x)

theorem sorted_insertSorted (x : String) : ∀ {l : List String},
    List.Sorted (· ≤ ·) l → List.Sorted (· ≤ ·) (insertSorted x l)
  | [], _ => by simp [insertSorted]
  | y :: ys, h => by
    simp only [insertSorted]
    by_cases hxy : strLe x y
    · rw [if_pos hxy]
      have hle : x ≤ y := (strLe_iff x y).mp hxy
      refine List.sorted_cons.mpr ⟨fun z hz => ?_, h⟩
      rcases List.mem_cons.mp hz with rfl | hz
      · exact hle
      · exact hle.trans ((List.sorted_cons.mp h).1 z hz)
    · rw [if_neg hxy]
      have hyx : y ≤ x := le_of_lt (not_le.mp (fun hc => hxy ((strLe_iff x y).mpr hc)))
      refine List.sorted_cons.mpr ⟨fun z hz => ?_, sorted_insertSorted x (List.sorted_cons.mp h).2⟩
      rcases mem_insertSorted.mp hz with rfl | hz
      · exact hyx
      · exact (List.sorted_cons.mp h).1 z hz

theorem sorted_sortStrings : ∀ l : List String, List.Sorted (· ≤ ·) (sortStrings l)
  | [] => List.sorted_nil
  | x :: xs => sorted_insertSorted x (sorted_sortStrings xs)

/-! ### Facts about `discover` -/

theorem sorted_discover (entries : List String) :
    List.Sorted (· ≤ ·) (discover entries) :=
  sorted_sortStrings _

theorem mem_discover {f : String} {entries : List String} :
    f ∈ discover entries ↔ matchesStarCbf f = true ∧ f ∈ entries := by
  rw [discover, (perm_sortStrings _).mem_iff, List.mem_filter, and_comm]

theorem nodup_discover {entries : List String} (h : entries.Nodup) :
    (discover entries).Nodup :=
  (perm_sortStrings _).nodup_iff.mpr (h.filter _)

/-! ### Structure of matched names and of the destination path -/

theorem rfindIdx_cons (c x : Char) (l : List Char) :
    rfindIdx c (x :: l) =
      match rfindIdx c l with
      | some i => some (i + 1)
      | none => if x = c then some 0 else none := rfl

theorem rfindIdx_append (c : Char) : ∀ xs ys : List Char,
    rfindIdx c (xs ++ ys) =
      match rfindIdx c ys with
      | some j => some (xs.length + j)
      | none => rfindIdx c xs
  | [], ys => by cases h : rfindIdx c ys <;> simp [h, rfindIdx]
  | x :: xs, ys => by
    rw [List.cons_append, rfindIdx_cons, rfindIdx_cons, rfindIdx_append c xs ys]
    cases h : rfindIdx c ys with
    | none => cases h' : rfindIdx c xs <;> simp
    | some j =>
      simp only [List.length_cons]
      exact congrArg some (by omega)

theorem rfindIdx_eq_none {c : Char} : ∀ {l : List Char}, c ∉ l → rfindIdx c l = none
  | [], _ => rfl
  | a :: as, h => by
    have ha : ¬ a = c := fun e => h (e ▸ List.mem_cons_self a as)
    have hr : rfindIdx c as = none := rfindIdx_eq_none fun m => h (List.mem_cons_of_mem a m)
    simp [rfindIdx, hr, ha]

theorem matched_iff {n : String} :
    matchesStarCbf n = true ↔
      n.data.drop (n.data.length - 4) = ".cbf".data ∧
      n.data.head? ≠ some '.' ∧ '/' ∉ n.data := by
  simp [matchesStarCbf, and_assoc]

/-- A name matched by the glob decomposes as `pre ++ ".cbf"` with `pre`
nonempty, not starting with a dot, and free of separators. Moreover
`os.path.splitext` strips exactly the `".cbf"` suffix from it. -/
theorem matched_splitext {n : String} (h : matchesStarCbf n = true) :
    ∃ pre : List Char,
      n.data = pre ++ ".cbf".data ∧ pre ≠ [] ∧ pre.head? ≠ some '.' ∧ '/' ∉ pre ∧
      (splitextRoot n).data = pre := by
  obtain ⟨hdrop, hhead, hsep⟩ := matched_iff.mp h
  refine ⟨n.data.take (n.data.length - 4), ?_, ?_, ?_, ?_, ?_⟩
  case _ =>
    conv_lhs => rw [← List.take_append_drop (n.data.length - 4) n.data]
    rw [hdrop]
  all_goals
    have heq : n.data = n.data.take (n.data.length - 4) ++ ".cbf".data := by
      conv_lhs => rw [← List.take_append_drop (n.data.length - 4) n.data]
      rw [hdrop]
  all_goals
    have hnil : n.data.take (n.data.length - 4) ≠ [] := by
      intro hn
      rw [hn, List.nil_append] at heq
      rw [heq] at hhead
      exact hhead rfl
  case _ => exact hnil
  case _ =>
    cases hp : n.data.take (n.data.length - 4) with
    | nil => exact absurd hp hnil
    | cons p pr =>
      rw [hp, List.cons_append] at heq
      rw [heq] at hhead
      simpa using hhead
  case _ => exact fun hm => hsep (List.take_subset _ _ hm)
  case _ =>
    have hslash : rfindIdx '/' n.data = none := rfindIdx_eq_none hsep
    have hdot : rfindIdx '.' n.data = some (n.data.take (n.data.length - 4)).length := by
      rw [heq, rfindIdx_append]
      norm_num [show rfindIdx '.' ".cbf".data = some 0 from by decide]
    have hidx : splitextIdx n.data = some (n.data.take (n.data.length - 4)).length := by
      rw [splitextIdx, hslash, hdot]
      simp only [Int.reduceNeg]
      rw [if_pos (by omega)]
      rw [if_pos ?side]
      case side =>
        cases hp : n.data.take (n.data.length - 4) with
        | nil => exact absurd hp hnil
        | cons p pr =>
          have hpne : ¬ p = '.' := by
            rw [hp, List.cons_append] at heq
            rw [heq] at hhead
            simpa using hhead
          have htake : n.data.drop (-1 + 1 : Int).toNat =
              (p :: pr) ++ ".cbf".data := by
            rw [show ((-1 + 1 : Int)).toNat = 0 from rfl, List.drop_zero, heq, hp]
          rw [htake]
          simp [hpne, hp]
    rw [splitextRoot, hidx]
    conv_rhs => rw [← List.take_left (n.data.take (n.data.length - 4)) ".cbf".data]
    rw [← heq]

theorem pathJoin_eq {a b : String} (hb : b.data.head? ≠ some '/')
    (ha : a.data ≠ []) (ha' : a.data.getLast? ≠ some '/') :
    pathJoin a b = a ++ "/" ++ b := by
  rw [pathJoin, if_neg hb, if_neg (not_or.mpr ⟨ha, ha'⟩)]

theorem dstArg_data (f df : String) :
    (splitextRoot f ++ "." ++ df).data = (splitextRoot f).data ++ '.' :: df.data := by
  simp [String.data_append]

theorem dstArg_head {f df : String} (hs : '/' ∉ (splitextRoot f).data) :
    (splitextRoot f ++ "." ++ df).data.head? ≠ some '/' := by
  rw [dstArg_data]
  cases hr : (splitextRoot f).data with
  | nil => simp
  | cons c cs =>
    simp only [List.cons_append, List.head?_cons, ne_eq, Option.some.injEq]
    intro hc
    exact hs (by rw [hr, hc]; exact List.mem_cons_self _ _)

/-- For the notebook's constants, the `os.path.join` call always takes its
final branch: the destination is `dest_dir`, a slash, then the stripped base
name and the new extension. -/
theorem dst_name_const {f : String} (hs : '/' ∉ (splitextRoot f).data) :
    dst_name dest_dir dest_format f =
      dest_dir ++ "/" ++ (splitextRoot f ++ "." ++ dest_format) :=
  pathJoin_eq (dstArg_head hs) (by decide) (by decide)

theorem slash_mem_dst (f : String) : '/' ∈ (dst_name dest_dir dest_format f).data := by
  rw [dst_name, pathJoin]
  by_cases hb : (splitextRoot f ++ "." ++ dest_format).data.head? = some '/'
  · rw [if_pos hb]
    cases hd : (splitextRoot f ++ "." ++ dest_format).data with
    | nil => rw [hd] at hb; simp at hb
    | cons c cs =>
      rw [hd] at hb
      simp only [List.head?_cons, Option.some.injEq] at hb
      rw [← hb]
      exact List.mem_cons_self c cs
  · rw [if_neg hb, if_neg (by decide)]
    simp [String.data_append]

theorem dst_not_matched (f : String) :
    matchesStarCbf (dst_name dest_dir dest_format f) = false := by
  rw [Bool.eq_false_iff]
  intro h
  exact (matched_iff.mp h).2.2 (slash_mem_dst f)

/-- On glob-matched names, the destination-path computation is injective. -/
theorem dst_name_inj {f g : String}
    (hf : matchesStarCbf f = true) (hg : matchesStarCbf g = true)
    (h : dst_name dest_dir dest_format f = dst_name dest_dir dest_format g) : f = g := by
  obtain ⟨pf, hf1, _, _, hf4, hf5⟩ := matched_splitext hf
  obtain ⟨pg, hg1, _, _, hg4, hg5⟩ := matched_splitext hg
  rw [dst_name_const (hf5 ▸ hf4), dst_name_const (hg5 ▸ hg4)] at h
  have hd := congrArg String.data h
  simp only [String.data_append, dstArg_data, hf5, hg5, List.append_assoc] at hd
  have h2 := List.append_cancel_left hd
  have h3 := List.append_cancel_left h2
  have h4 : pf = pg := List.append_cancel_right h3
  apply String.ext
  rw [hf1, hg1, h4]

/-! ### Loop and trace lemmas -/

theorem openedFiles_append (a b : List Event) :
    openedFiles (a ++ b) = openedFiles a ++ openedFiles b :=
  List.filterMap_append a b _

theorem openedFiles_fileTrace (dd df f : String) (oc : Outcome) :
    openedFiles (fileTrace dd df f oc) = [f] := by
  cases oc <;> rfl

theorem mem_openedFiles {g : String} {tr : List Event} :
    g ∈ openedFiles tr ↔ Event.openFile g ∈ tr := by
  constructor
  · intro h
    obtain ⟨e, he, hsome⟩ := List.mem_filterMap.mp h
    cases e <;> simp_all
  · intro h
    exact List.mem_filterMap.mpr ⟨_, h, rfl⟩

theorem openedFiles_loopTrace_sublist (dd df : String) (oc : String → Outcome) :
    ∀ fs : List String, (openedFiles (loopTrace dd df oc fs)).Sublist fs
  | [] => by simp [loopTrace, openedFiles]
  | f :: fs => by
    by_cases h : oc f = Outcome.ok
    · rw [loopTrace, if_pos h, openedFiles_append, openedFiles_fileTrace]
      exact (openedFiles_loopTrace_sublist dd df oc fs).cons₂ f
    · rw [loopTrace, if_neg h, openedFiles_fileTrace]
      exact (List.nil_sublist fs).cons₂ f

theorem loopOutputs_all_ok (dd df : String) (oc : String → Outcome) :
    ∀ {fs : List String}, (∀ f ∈ fs, oc f = .ok) →
      loopOutputs dd df oc fs = fs.map (dst_name dd df)
  | [], _ => rfl
  | f :: fs, h => by
    simp only [loopOutputs, if_pos (h f (List.mem_cons_self f fs)), List.map_cons]
    rw [loopOutputs_all_ok dd df oc (fun g hg => h g (List.mem_cons_of_mem f hg))]

theorem loopCompleted_all_ok (oc : String → Outcome) :
    ∀ {fs : List String}, (∀ f ∈ fs, oc f = .ok) → loopCompleted oc fs = true
  | [], _ => rfl
  | f :: fs, h => by
    simp only [loopCompleted, h f (List.mem_cons_self f fs), decide_True, Bool.true_and]
    exact loopCompleted_all_ok oc (fun g hg => h g (List.mem_cons_of_mem f hg))

theorem loopTrace_fail (dd df : String) (oc : String → Outcome) {f : String}
    (hf : oc f ≠ .ok) : ∀ (pre post : List String), (∀ g ∈ pre, oc g = .ok) →
    loopTrace dd df oc (pre ++ f :: post) =
      loopTrace dd df oc pre ++ fileTrace dd df f (oc f)
  | [], post, _ => by simp [loopTrace, if_neg hf]
  | g :: pre, post, h => by
    have hg := h g (List.mem_cons_self g pre)
    simp only [List.cons_append, loopTrace, if_pos hg, List.append_assoc, List.append_eq]
    rw [loopTrace_fail dd df oc hf pre post (fun x hx => h x (List.mem_cons_of_mem g hx))]

theorem loopOutputs_fail (dd df : String) (oc : String → Outcome) {f : String}
    (hf : oc f ≠ .ok) : ∀ (pre post : List String), (∀ g ∈ pre, oc g = .ok) →
    loopOutputs dd df oc (pre ++ f :: post) = pre.map (dst_name dd df)
  | [], post, _ => by simp [loopOutputs, if_neg hf]
  | g :: pre, post, h => by
    have hg := h g (List.mem_cons_self g pre)
    simp only [List.cons_append, loopOutputs, if_pos hg, List.map_cons, List.append_eq]
    rw [loopOutputs_fail dd df oc hf pre post (fun x hx => h x (List.mem_cons_of_mem g hx))]

theorem loopCompleted_fail (oc : String → Outcome) {f : String}
    (hf : oc f ≠ .ok) : ∀ (pre post : List String),
    loopCompleted oc (pre ++ f :: post) = false
  | [], post => by simp [loopCompleted, hf]
  | g :: pre, post => by
    simp only [List.cons_append, loopCompleted, List.append_eq,
      loopCompleted_fail oc hf pre post, Bool.and_false]

theorem makedirs_notMem_fileTrace (dd df f : String) (oc : Outcome) (p : String) :
    Event.makedirs p ∉ fileTrace dd df f oc := by
  cases oc <;> simp [fileTrace]

theorem makedirs_notMem_loopTrace (dd df : String) (oc : String → Outcome) (p : String) :
    ∀ fs : List String, Event.makedirs p ∉ loopTrace dd df oc fs
  | [] => by simp [loopTrace]
  | f :: fs => by
    by_cases h : oc f = Outcome.ok
    · simp only [loopTrace, if_pos h, List.mem_append]
      rintro (hc | hc)
      · exact makedirs_notMem_fileTrace dd df f .ok p hc
      · exact makedirs_notMem_loopTrace dd df oc p fs hc
    · simp only [loopTrace, if_neg h]
      exact makedirs_notMem_fileTrace dd df f (oc f) p

/-! ### Unfolding the run -/

theorem run_trace (dd df : String) (entries : List String) (dest : DestEntry)
    (oc : String → Outcome) :
    (run dd df entries dest oc).trace =
      Event.printCount (discover entries).length ::
        Event.existsCheck dd (osPathExists dest) ::
        (if osPathExists dest then [] else [Event.makedirs dd]) ++
        loopTrace dd df oc (discover entries) ++
        (if loopCompleted oc (discover entries) then
          [Event.printSpeed (printedSpeed (discover entries).length)]
        else []) := rfl

theorem run_count (dd df : String) (entries : List String) (dest : DestEntry)
    (oc : String → Outcome) :
    (run dd df entries dest oc).countPrinted = (discover entries).length := rfl

theorem run_outputs (dd df : String) (entries : List String) (dest : DestEntry)
    (oc : String → Outcome) :
    (run dd df entries dest oc).outputs = loopOutputs dd df oc (discover entries) := rfl

theorem run_completed (dd df : String) (entries : List String) (dest : DestEntry)
    (oc : String → Outcome) :
    (run dd df entries dest oc).completed = loopCompleted oc (discover entries) := rfl

theorem run_speed (dd df : String) (entries : List String) (dest : DestEntry)
    (oc : String → Outcome) :
    (run dd df entries dest oc).speedPrinted =
      if loopCompleted oc (discover entries) then
        some (printedSpeed (discover entries).length)
      else none := rfl

/-! ### Disk primitives -/

theorem any_key_iff (d : Disk) (p : String) :
    d.any (fun e => e.1 = p) = true ↔ p ∈ diskPaths d := by
  rw [List.any_eq_true]
  constructor
  · rintro ⟨e, he, hp⟩
    exact List.mem_map.mpr ⟨e, he, of_decide_eq_true hp⟩
  · intro h
    obtain ⟨e, he, hp⟩ := List.mem_map.mp h
    exact ⟨e, he, decide_eq_true hp⟩

theorem diskLookup_replace_mem {p : String} (c : String) : ∀ {d : Disk},
    p ∈ diskPaths d →
    diskLookup p (d.map (fun e => if e.1 = p then (p, c) else e)) = some c
  | e :: es, h => by
    by_cases he : e.1 = p
    · simp [diskLookup, he]
    · have h' : p ∈ diskPaths es := by
        rcases List.mem_cons.mp h with h1 | h1
        · exact absurd h1.symm he
        · exact h1
      simp [diskLookup, he, diskLookup_replace_mem c h']

theorem diskLookup_replace_ne {p q : String} (c : String) (h : ¬ p = q) :
    ∀ d : Disk,
    diskLookup q (d.map (fun e => if e.1 = p then (p, c) else e)) = diskLookup q d
  | [] => rfl
  | e :: es => by
    by_cases he : e.1 = p
    · simp [diskLookup, he, h, diskLookup_replace_ne c h es]
    · simp [diskLookup, he, diskLookup_replace_ne c h es]

theorem diskLookup_append_singleton_ne {p q : String} (c : String) (h : ¬ p = q) :
    ∀ d : Disk, diskLookup q (d ++ [(p, c)]) = diskLookup q d
  | [] => by simp [diskLookup, h]
  | e :: es => by simp [diskLookup, diskLookup_append_singleton_ne c h es]

theorem diskLookup_append_singleton_self (p c : String) :
    ∀ d : Disk, p ∉ diskPaths d → diskLookup p (d ++ [(p, c)]) = some c
  | [], _ => by simp [diskLookup]
  | e :: es, hnp => by
    have he : ¬ e.1 = p := fun hc => hnp (List.mem_cons.mpr (Or.inl hc.symm))
    simp only [List.cons_append, diskLookup, if_neg he]
    exact diskLookup_append_singleton_self p c es
      (fun hc => hnp (List.mem_cons.mpr (Or.inr hc)))

theorem diskLookup_diskWrite_self (d : Disk) (p c : String) :
    diskLookup p (diskWrite d p c) = some c := by
  rw [diskWrite]
  by_cases h : d.any (fun e => e.1 = p) = true
  · rw [if_pos h]
    exact diskLookup_replace_mem c ((any_key_iff d p).mp h)
  · rw [if_neg h]
    exact diskLookup_append_singleton_self p c d
      (fun hc => h ((any_key_iff d p).mpr hc))

theorem diskLookup_diskWrite_ne (d : Disk) {p q : String} (c : String)
    (h : ¬ q = p) : diskLookup q (diskWrite d p c) = diskLookup q d := by
  have h' : ¬ p = q := fun e => h e.symm
  rw [diskWrite]
  split
  · exact diskLookup_replace_ne c h' d
  · exact diskLookup_append_singleton_ne c h' d

theorem diskPaths_diskWrite (d : Disk) (p c : String) :
    diskPaths (diskWrite d p c) =
      if p ∈ diskPaths d then diskPaths d else diskPaths d ++ [p] := by
  rw [diskWrite]
  by_cases h : d.any (fun e => e.1 = p) = true
  · rw [if_pos h, if_pos ((any_key_iff d p).mp h)]
    rw [diskPaths, List.map_map]
    refine List.map_congr_left fun e he => ?_
    by_cases hep : e.1 = p
    · simp [Function.comp, hep]
    · simp [Function.comp, hep]
  · rw [if_neg h, if_neg (fun hc => h ((any_key_iff d p).mpr hc))]
    rw [diskPaths, List.map_append]
    rfl

theorem discoverDisk_diskWrite {p : String} (hp : matchesStarCbf p = false)
    (d : Disk) (c : String) :
    discoverDisk (diskWrite d p c) = discoverDisk d := by
  rw [discoverDisk, discoverDisk, diskPaths_diskWrite]
  split
  · rfl
  · rw [discover, discover, List.filter_append]
    simp [List.filter, hp]

theorem mem_diskPaths_diskWrite_self (d : Disk) (p c : String) :
    p ∈ diskPaths (diskWrite d p c) := by
  rw [diskPaths_diskWrite]
  split
  · next h => exact h
  · exact List.mem_append.mpr (Or.inr (by simp))

theorem mem_diskPaths_diskWrite_mono {d : Disk} {q : String}
    (hq : q ∈ diskPaths d) (p c : String) :
    q ∈ diskPaths (diskWrite d p c) := by
  rw [diskPaths_diskWrite]
  split
  · exact hq
  · exact List.mem_append.mpr (Or.inl hq)

theorem diskWrite_noop {d : Disk} {p c : String}
    (hmem : p ∈ diskPaths d) (hval : ∀ e ∈ d, e.1 = p → e.2 = c) :
    diskWrite d p c = d := by
  rw [diskWrite, if_pos ((any_key_iff d p).mpr hmem)]
  have hpt : ∀ e ∈ d, (if e.1 = p then (p, c) else e) = e := by
    intro e he
    by_cases hep : e.1 = p
    · rw [if_pos hep]
      exact Prod.ext hep.symm (hval e he hep).symm
    · rw [if_neg hep]
  exact (List.map_congr_left hpt).trans (List.map_id d)

theorem allVal_diskWrite_self (d : Disk) (p c : String) :
    ∀ e ∈ diskWrite d p c, e.1 = p → e.2 = c := by
  rw [diskWrite]
  by_cases hany : d.any (fun e => e.1 = p) = true
  · rw [if_pos hany]
    intro e he hep
    obtain ⟨e', _, hg⟩ := List.mem_map.mp he
    by_cases h' : e'.1 = p
    · rw [if_pos h'] at hg
      rw [← hg]
    · rw [if_neg h'] at hg
      exact absurd (hg ▸ hep) h'
  · rw [if_neg hany]
    intro e he hep
    rcases List.mem_append.mp he with h1 | h1
    · exact absurd ((any_key_iff d p).mpr (List.mem_map.mpr ⟨e, h1, hep⟩)) hany
    · rw [List.mem_singleton.mp h1]

theorem allVal_diskWrite_ne {d : Disk} {p q : String} {c : String} (c' : String)
    (hq : ∀ e ∈ d, e.1 = q → e.2 = c) (hne : p ≠ q) :
    ∀ e ∈ diskWrite d p c', e.1 = q → e.2 = c := by
  rw [diskWrite]
  split
  · intro e he heq
    obtain ⟨e', he', hg⟩ := List.mem_map.mp he
    by_cases h' : e'.1 = p
    · rw [if_pos h'] at hg
      have hep : e.1 = p := by rw [← hg]
      exact absurd (hep.symm.trans heq) hne
    · rw [if_neg h'] at hg
      exact hq e (hg ▸ he') heq
  · intro e he heq
    rcases List.mem_append.mp he with h1 | h1
    · exact hq e h1 heq
    · rw [List.mem_singleton.mp h1] at heq
      exact absurd heq hne

/-! ### The conversion loop over the disk -/

theorem foldl_diskStep_reads (cc : String → String) :
    ∀ (fs rs : List String) (ws : List (String × String)) (dk : Disk),
    (fs.foldl (diskStep cc) (rs, ws, dk)).1 = rs ++ fs
  | [], rs, ws, dk => by simp
  | f :: fs, rs, ws, dk => by
    rw [List.foldl_cons]
    simp only [diskStep]
    rw [foldl_diskStep_reads cc fs _ _ _]
    simp

theorem foldl_diskStep_lookup (cc : String → String) {g : String}
    (hg : matchesStarCbf g = true) :
    ∀ (fs rs : List String) (ws : List (String × String)) (dk : Disk),
    diskLookup g (fs.foldl (diskStep cc) (rs, ws, dk)).2.2 = diskLookup g dk
  | [], _, _, dk => rfl
  | f :: fs, rs, ws, dk => by
    rw [List.foldl_cons]
    simp only [diskStep]
    rw [foldl_diskStep_lookup cc hg fs _ _ _]
    refine diskLookup_diskWrite_ne dk _ fun he => ?_
    rw [he, dst_not_matched f] at hg
    exact Bool.noConfusion hg

theorem foldl_diskStep_discover (cc : String → String) :
    ∀ (fs rs : List String) (ws : List (String × String)) (dk : Disk),
    discoverDisk (fs.foldl (diskStep cc) (rs, ws, dk)).2.2 = discoverDisk dk
  | [], _, _, dk => rfl
  | f :: fs, rs, ws, dk => by
    rw [List.foldl_cons]
    simp only [diskStep]
    rw [foldl_diskStep_discover cc fs _ _ _,
      discoverDisk_diskWrite (dst_not_matched f)]

theorem foldl_diskStep_writes (cc : String → String) :
    ∀ (fs : List String), (∀ f ∈ fs, matchesStarCbf f = true) →
    ∀ (rs : List String) (ws : List (String × String)) (dk : Disk),
    (fs.foldl (diskStep cc) (rs, ws, dk)).2.1 =
      ws ++ fs.map (fun f =>
        (dst_name dest_dir dest_format f, cc ((diskLookup f dk).getD "")))
  | [], _, rs, ws, dk => by simp
  | f :: fs, h, rs, ws, dk => by
    rw [List.foldl_cons]
    simp only [diskStep]
    rw [foldl_diskStep_writes cc fs (fun g hg => h g (List.mem_cons_of_mem f hg)) _ _ _]
    have hmap : fs.map (fun g => (dst_name dest_dir dest_format g,
        cc ((diskLookup g (diskWrite dk (dst_name dest_dir dest_format f)
          (cc ((diskLookup f dk).getD "")))).getD ""))) =
        fs.map (fun g =>
          (dst_name dest_dir dest_format g, cc ((diskLookup g dk).getD ""))) := by
      refine List.map_congr_left fun g hg => ?_
      have hgm := h g (List.mem_cons_of_mem f hg)
      rw [diskLookup_diskWrite_ne dk _ fun he => ?_]
      rw [he, dst_not_matched f] at hgm
      exact Bool.noConfusion hgm
    rw [hmap]
    simp

theorem foldl_diskStep_inv (cc : String → String) {f : String}
    (hf : matchesStarCbf f = true) :
    ∀ (fs : List String), (∀ g ∈ fs, matchesStarCbf g = true) →
    ∀ (rs : List String) (ws : List (String × String)) (dk : Disk),
    dst_name dest_dir dest_format f ∈ diskPaths dk →
    (∀ e ∈ dk, e.1 = dst_name dest_dir dest_format f →
      e.2 = cc ((diskLookup f dk).getD "")) →
    dst_name dest_dir dest_format f ∈
        diskPaths (fs.foldl (diskStep cc) (rs, ws, dk)).2.2 ∧
      ∀ e ∈ (fs.foldl (diskStep cc) (rs, ws, dk)).2.2,
        e.1 = dst_name dest_dir dest_format f →
        e.2 = cc ((diskLookup f (fs.foldl (diskStep cc) (rs, ws, dk)).2.2).getD "")
  | [], _, rs, ws, dk, hmem, hval => ⟨hmem, hval⟩
  | g :: fs, hall, rs, ws, dk, hmem, hval => by
    rw [List.foldl_cons]
    simp only [diskStep]
    have hgm := hall g (List.mem_cons_self g fs)
    have hkey : ¬ f = dst_name dest_dir dest_format g := fun he => by
      rw [he, dst_not_matched g] at hf
      exact Bool.noConfusion hf
    have hlook : diskLookup f (diskWrite dk (dst_name dest_dir dest_format g)
        (cc ((diskLookup g dk).getD ""))) = diskLookup f dk :=
      diskLookup_diskWrite_ne dk _ hkey
    refine foldl_diskStep_inv cc hf fs
      (fun x hx => hall x (List.mem_cons_of_mem g hx)) _ _ _
      (mem_diskPaths_diskWrite_mono hmem _ _) ?_
    rw [hlook]
    by_cases hfg : f = g
    · subst hfg
      exact allVal_diskWrite_self dk _ _
    · refine allVal_diskWrite_ne _ hval fun he => hfg ?_
      exact (dst_name_inj hgm hf he).symm

theorem foldl_diskStep_establishes (cc : String → String) :
    ∀ (fs : List String), (∀ g ∈ fs, matchesStarCbf g = true) →
    ∀ (rs : List String) (ws : List (String × String)) (dk : Disk), ∀ f ∈ fs,
    dst_name dest_dir dest_format f ∈
        diskPaths (fs.foldl (diskStep cc) (rs, ws, dk)).2.2 ∧
      ∀ e ∈ (fs.foldl (diskStep cc) (rs, ws, dk)).2.2,
        e.1 = dst_name dest_dir dest_format f →
        e.2 = cc ((diskLookup f (fs.foldl (diskStep cc) (rs, ws, dk)).2.2).getD "")
  | g :: fs, hall, rs, ws, dk, f, hf => by
    rw [List.foldl_cons]
    simp only [diskStep]
    rcases List.mem_cons.mp hf with rfl | hmem
    · have hfm := hall f (List.mem_cons_self f fs)
      have hkey : ¬ f = dst_name dest_dir dest_format f := fun he => by
        rw [he, dst_not_matched f] at hfm
        exact Bool.noConfusion hfm
      have hlook : diskLookup f (diskWrite dk (dst_name dest_dir dest_format f)
          (cc ((diskLookup f dk).getD ""))) = diskLookup f dk :=
        diskLookup_diskWrite_ne dk _ hkey
      refine foldl_diskStep_inv cc hfm fs
        (fun x hx => hall x (List.mem_cons_of_mem _ hx)) _ _ _
        (mem_diskPaths_diskWrite_self dk _ _) ?_
      rw [hlook]
      exact allVal_diskWrite_self dk _ _
    · exact foldl_diskStep_establishes cc fs
        (fun x hx => hall x (List.mem_cons_of_mem g hx)) _ _ _ f hmem

theorem foldl_diskStep_noop (cc : String → String) :
    ∀ (fs : List String), ∀ (dk : Disk),
    (∀ f ∈ fs,
      dst_name dest_dir dest_format f ∈ diskPaths dk ∧
      ∀ e ∈ dk, e.1 = dst_name dest_dir dest_format f →
        e.2 = cc ((diskLookup f dk).getD "")) →
    ∀ (rs : List String) (ws : List (String × String)),
    (fs.foldl (diskStep cc) (rs, ws, dk)).2.2 = dk
  | [], dk, _, rs, ws => rfl
  | f :: fs, dk, hinv, rs, ws => by
    rw [List.foldl_cons]
    simp only [diskStep]
    have h0 := hinv f (List.mem_cons_self f fs)
    rw [diskWrite_noop h0.1 h0.2]
    exact foldl_diskStep_noop cc fs dk
      (fun g hg => hinv g (List.mem_cons_of_mem f hg)) _ _

theorem mem_discoverDisk_matched {d : Disk} {g : String}
    (h : g ∈ discoverDisk d) : matchesStarCbf g = true :=
  (mem_discover.mp h).1

/-! ### Further run-level helpers -/

theorem count_makedirs_run (dd df : String) (entries : List String)
    (dest : DestEntry) (outcome : String → Outcome) :
    (run dd df entries dest outcome).trace.count (Event.makedirs dd) =
      if osPathExists dest then 0 else 1 := by
  have hloop : (loopTrace dd df outcome (discover entries)).count (Event.makedirs dd) = 0 :=
    List.count_eq_zero.mpr (makedirs_notMem_loopTrace dd df outcome dd _)
  rw [run_trace]
  cases hb : osPathExists dest <;>
    cases hc : loopCompleted outcome (discover entries) <;>
      simp [List.count_cons, List.count_append, hloop]

theorem openedFiles_run (dd df : String) (entries : List String)
    (dest : DestEntry) (outcome : String → Outcome) :
    openedFiles (run dd df entries dest outcome).trace =
      openedFiles (loopTrace dd df outcome (discover entries)) := by
  rw [run_trace]
  cases hb : osPathExists dest <;>
    cases hc : loopCompleted outcome (discover entries) <;>
      simp [openedFiles, List.filterMap_cons, List.filterMap_append]

/-! ### The claims -/

/-- C2: input files are processed strictly in lexicographically sorted order
of their names; for sources a.cbf, b.cbf, c.cbf with target format edf and
destination directory out, the outputs out/a.edf, out/b.edf, out/c.edf are
created in that order, each file fully opened, converted and saved before the
next begins. -/
theorem files_processed_in_sorted_order :
    (∀ (dd df : String) (entries : List String) (dest : DestEntry)
        (outcome : String → Outcome),
      List.Sorted (· ≤ ·) (openedFiles (run dd df entries dest outcome).trace)) ∧
    (run "out" "edf" ["a.cbf", "b.cbf", "c.cbf"] .dir (fun _ => .ok)).trace =
      [.printCount 3, .existsCheck "out" true,
       .openFile "a.cbf", .convert "edf", .save "out/a.edf",
       .openFile "b.cbf", .convert "edf", .save "out/b.edf",
       .openFile "c.cbf", .convert "edf", .save "out/c.edf",
       .printSpeed (printedSpeed 3)] ∧
    (run "out" "edf" ["a.cbf", "b.cbf", "c.cbf"] .dir (fun _ => .ok)).outputs =
      ["out/a.edf", "out/b.edf", "out/c.edf"] := by
  refine ⟨fun dd df entries dest oc => ?_, by rfl, by decide⟩
  rw [openedFiles_run]
  exact List.Pairwise.sublist (openedFiles_loopTrace_sublist dd df oc _)
    (sorted_discover entries)

/-- C3: for every input file path (a separator-free directory-entry name),
the destination path is the target directory joined with the input's base
name, extension stripped, plus the target format's canonical extension;
e.g. x.cbf maps to <dest_dir>/x.edf. -/
theorem dest_path_from_basename :
    (∀ dd df f : String, '/' ∉ f.data → dd.data ≠ [] →
      dd.data.getLast? ≠ some '/' →
      dst_name dd df f = specDestinationPath dd df f) ∧
    dst_name "edf_format" "edf" "x.cbf" = "edf_format/x.edf" := by
  refine ⟨?_, by decide⟩
  intro dd df f hf hdd hdd'
  have hroot : '/' ∉ (splitextRoot f).data := by
    rw [splitextRoot]
    cases h : splitextIdx f.data with
    | none => exact hf
    | some i => exact fun hm => hf (List.take_subset _ _ hm)
  rw [dst_name, pathJoin_eq (dstArg_head hroot) hdd hdd', specDestinationPath]
  apply String.ext
  simp [String.data_append]

theorem dest_path_from_basename_witness :
    dst_name "out" "edf" "a.b.cbf" = specDestinationPath "out" "edf" "a.b.cbf" :=
  dest_path_from_basename.1 "out" "edf" "a.b.cbf" (by decide) (by decide) (by decide)

/-- C6: before any conversion begins the destination directory exists or is
created exactly once, idempotently: if it exists no creation is attempted, if
not it is created (once, before any file is opened) and the batch proceeds. -/
theorem dest_dir_created_once_idempotently (dd df : String) (entries : List String)
    (dest : DestEntry) (outcome : String → Outcome) :
    ((run dd df entries dest outcome).trace.count (Event.makedirs dd) =
      if osPathExists dest then 0 else 1) ∧
    (osPathExists dest = false →
      (run dd df entries dest outcome).trace.take 3 =
        [Event.printCount (discover entries).length, Event.existsCheck dd false,
          Event.makedirs dd] ∧
      ∀ p : String, Event.makedirs p ∉ (run dd df entries dest outcome).trace.drop 3) ∧
    (run dd df entries dest outcome).completed =
      loopCompleted outcome (discover entries) := by
  refine ⟨count_makedirs_run dd df entries dest outcome, fun hb => ⟨?_, ?_⟩, rfl⟩
  · rw [run_trace, hb]
    rfl
  · intro p
    have hdrop : (run dd df entries dest outcome).trace.drop 3 =
        loopTrace dd df outcome (discover entries) ++
        (if loopCompleted outcome (discover entries) then
          [Event.printSpeed (printedSpeed (discover entries).length)]
        else []) := by
      rw [run_trace, hb]
      rfl
    rw [hdrop]
    intro hmem
    rcases List.mem_append.mp hmem with h1 | h1
    · exact makedirs_notMem_loopTrace dd df outcome p _ h1
    · cases hc : loopCompleted outcome (discover entries) <;> rw [hc] at h1 <;> simp at h1

theorem dest_dir_created_once_idempotently_witness :
    (run "edf_format" "edf" ["a.cbf"] .absent (fun _ => .ok)).trace.take 3 =
      [Event.printCount (discover ["a.cbf"]).length, Event.existsCheck "edf_format" false,
        Event.makedirs "edf_format"] :=
  ((dest_dir_created_once_idempotently "edf_format" "edf" ["a.cbf"] .absent
    (fun _ => .ok)).2.1 rfl).1

/-- C9: the pre-loop check tests only existence, not directory-ness: with any
entry (in particular a regular file) at the destination path, creation is
skipped and the run is indistinguishable from one where a directory is there —
the batch proceeds into the conversion loop. -/
theorem exists_check_accepts_any_entry (dd df : String) (entries : List String)
    (outcome : String → Outcome) :
    run dd df entries .file outcome = run dd df entries .dir outcome ∧
    (run dd df entries .file outcome).trace.count (Event.makedirs dd) = 0 ∧
    (run dd df entries .file outcome).completed =
      loopCompleted outcome (discover entries) := by
  refine ⟨rfl, ?_, rfl⟩
  rw [count_makedirs_run]
  rfl

/-- C10: when the glob matches no files the run still completes without
error: a count of 0 is printed, the directory is still created if absent, the
loop performs zero iterations, and a throughput of 0.0 is reported. -/
theorem empty_file_set_run (dd df : String) (entries : List String)
    (dest : DestEntry) (outcome : String → Outcome)
    (h : ∀ e ∈ entries, matchesStarCbf e = false) :
    (run dd df entries dest outcome).countPrinted = 0 ∧
    ((run dd df entries dest outcome).trace.count (Event.makedirs dd) =
      if osPathExists dest then 0 else 1) ∧
    openedFiles (run dd df entries dest outcome).trace = [] ∧
    (run dd df entries dest outcome).outputs = [] ∧
    (run dd df entries dest outcome).completed = true ∧
    (run dd df entries dest outcome).speedPrinted = some 0 := by
  have hdisc : discover entries = [] := by
    rw [discover, List.filter_eq_nil_iff.mpr (fun a ha => by simp [h a ha])]
    rfl
  refine ⟨by rw [run_count, hdisc]; rfl,
    count_makedirs_run dd df entries dest outcome, ?_, ?_, ?_, ?_⟩
  · rw [openedFiles_run, hdisc]
    rfl
  · rw [run_outputs, hdisc]
    rfl
  · rw [run_completed, hdisc]
    rfl
  · rw [run_speed, hdisc]
    norm_num [loopCompleted, printedSpeed]

theorem empty_file_set_run_witness :
    (run "edf_format" "edf" ["notes.txt"] .absent (fun _ => .ok)).countPrinted = 0 ∧
    ((run "edf_format" "edf" ["notes.txt"] .absent (fun _ => .ok)).trace.count
      (Event.makedirs "edf_format") = if osPathExists .absent then 0 else 1) ∧
    openedFiles (run "edf_format" "edf" ["notes.txt"] .absent (fun _ => .ok)).trace = [] ∧
    (run "edf_format" "edf" ["notes.txt"] .absent (fun _ => .ok)).outputs = [] ∧
    (run "edf_format" "edf" ["notes.txt"] .absent (fun _ => .ok)).completed = true ∧
    (run "edf_format" "edf" ["notes.txt"] .absent (fun _ => .ok)).speedPrinted = some 0 :=
  empty_file_set_run "edf_format" "edf" ["notes.txt"] .absent (fun _ => .ok) (by decide)

/-- C1 counterexample: the printed figure is `len(files)/5.64` with a
hard-coded `5.64`, not the measured wall time. In the notebook's recorded
execution there are 18 files and the `%%time` cell reports `Wall time: 1.06 s`
for the conversion loop, yet the speed cell prints `18/5.64 ≈ 3.2` — not
`18/1.06 ≈ 17.0`. At a run over 18 discovered files the printed value is
`18/5.64` and differs from file count over the recorded elapsed seconds. -/
theorem throughput_not_measured_cex :
    (run dest_dir dest_format cbfEntries18 .absent (fun _ => .ok)).countPrinted = 18 ∧
    (run dest_dir dest_format cbfEntries18 .absent (fun _ => .ok)).speedPrinted =
      some ((18 : ℚ) / (564 / 100)) ∧
    (run dest_dir dest_format cbfEntries18 .absent (fun _ => .ok)).speedPrinted ≠
      some ((18 : ℚ) / (106 / 100)) := by
  have hs : (run dest_dir dest_format cbfEntries18 .absent (fun _ => .ok)).speedPrinted =
      some (printedSpeed 18) := rfl
  refine ⟨rfl, ?_, ?_⟩
  · rw [hs]
    norm_num [printedSpeed, hardcodedSeconds]
  · rw [hs]
    intro hc
    have h2 := Option.some.inj hc
    norm_num [printedSpeed, hardcodedSeconds] at h2

/-- C1 (amended): the throughput figure printed at the end equals the number
of discovered input files divided by the hard-coded constant 5.64 seconds
(not by the measured wall-clock time of the loop), and it is computed only
after every file has been processed: when the run completes it is the final
event, and when the loop aborts no throughput is printed at all. -/
theorem throughput_hardcoded_after_loop (dd df : String) (entries : List String)
    (dest : DestEntry) (outcome : String → Outcome) :
    ((run dd df entries dest outcome).speedPrinted =
      if (run dd df entries dest outcome).completed then
        some (((run dd df entries dest outcome).countPrinted : ℚ) / (564 / 100))
      else none) ∧
    ((run dd df entries dest outcome).completed = true →
      (run dd df entries dest outcome).trace.getLast? =
        some (Event.printSpeed
          (((run dd df entries dest outcome).countPrinted : ℚ) / (564 / 100)))) := by
  constructor
  · rfl
  · intro hc
    rw [run_completed] at hc
    have hshape : ∀ (e₁ e₂ : Event) (l : List Event) (x : Event),
        (e₁ :: e₂ :: (l ++ [x])).getLast? = some x := by
      intro e₁ e₂ l x
      rw [show e₁ :: e₂ :: (l ++ [x]) = (e₁ :: e₂ :: l) ++ [x] from by simp]
      exact List.getLast?_concat _
    rw [run_trace, hc, run_count]
    exact hshape _ _ _ _

theorem throughput_hardcoded_after_loop_witness :
    (run dest_dir dest_format ["a.cbf"] .dir (fun _ => .ok)).trace.getLast? =
      some (Event.printSpeed (((run dest_dir dest_format ["a.cbf"] .dir
        (fun _ => .ok)).countPrinted : ℚ) / (564 / 100))) :=
  (throughput_hardcoded_after_loop dest_dir dest_format ["a.cbf"] .dir
    (fun _ => .ok)).2 rfl

/-- C4: after a run that completes without failure the outputs are exactly
one per discovered input, each the input's base name with the configured
target extension inside the destination directory: the output list is the
image of the sorted input list under the destination map, is duplicate-free,
each input's destination occurs exactly once, and nothing else is written. -/
theorem one_output_per_input (entries : List String) (dest : DestEntry)
    (outcome : String → Outcome) (hnd : entries.Nodup)
    (hok : ∀ f, outcome f = Outcome.ok) :
    (run dest_dir dest_format entries dest outcome).completed = true ∧
    (run dest_dir dest_format entries dest outcome).outputs =
      (discover entries).map (dst_name dest_dir dest_format) ∧
    (run dest_dir dest_format entries dest outcome).outputs.Nodup ∧
    (∀ f ∈ discover entries,
      (run dest_dir dest_format entries dest outcome).outputs.count
        (dst_name dest_dir dest_format f) = 1) ∧
    ∀ o ∈ (run dest_dir dest_format entries dest outcome).outputs,
      ∃ f ∈ discover entries, o = dst_name dest_dir dest_format f := by
  have hout : (run dest_dir dest_format entries dest outcome).outputs =
      (discover entries).map (dst_name dest_dir dest_format) := by
    rw [run_outputs]
    exact loopOutputs_all_ok _ _ _ (fun f _ => hok f)
  have hnodup : ((discover entries).map (dst_name dest_dir dest_format)).Nodup :=
    List.Nodup.map_on
      (fun x hx y hy hxy =>
        dst_name_inj (mem_discover.mp hx).1 (mem_discover.mp hy).1 hxy)
      (nodup_discover hnd)
  refine ⟨?_, hout, ?_, ?_, ?_⟩
  · rw [run_completed]
    exact loopCompleted_all_ok _ (fun f _ => hok f)
  · rw [hout]
    exact hnodup
  · intro f hf
    rw [hout]
    exact List.count_eq_one_of_mem hnodup (List.mem_map_of_mem _ hf)
  · intro o ho
    rw [hout] at ho
    obtain ⟨f, hf, rfl⟩ := List.mem_map.mp ho
    exact ⟨f, hf, rfl⟩

theorem one_output_per_input_witness :
    (run dest_dir dest_format ["b.cbf", "a.cbf"] .dir (fun _ => .ok)).completed = true ∧
    (run dest_dir dest_format ["b.cbf", "a.cbf"] .dir (fun _ => .ok)).outputs =
      (discover ["b.cbf", "a.cbf"]).map (dst_name dest_dir dest_format) ∧
    (run dest_dir dest_format ["b.cbf", "a.cbf"] .dir (fun _ => .ok)).outputs.Nodup ∧
    (run dest_dir dest_format ["b.cbf", "a.cbf"] .dir (fun _ => .ok)).outputs.count
      (dst_name dest_dir dest_format "a.cbf") = 1 :=
  have h := one_output_per_input ["b.cbf", "a.cbf"] .dir (fun _ => .ok)
    (by decide) (fun _ => rfl)
  ⟨h.1, h.2.1, h.2.2.1, h.2.2.2.1 "a.cbf" (by decide)⟩

/-- C5: no error is caught inside the conversion loop: the first file whose
open/convert/save chain raises terminates the whole batch — the loop's
completed outputs are exactly those of the files before it, no speed line is
printed, and no later file is ever opened. In particular a corrupt b.cbf in
[a.cbf, b.cbf, c.cbf] aborts after out/a.edf is saved and before c.cbf is
touched. -/
theorem failure_aborts_batch :
    (∀ (dd df : String) (entries pre post : List String) (dest : DestEntry)
        (outcome : String → Outcome) (f : String),
      discover entries = pre ++ f :: post →
      (∀ g ∈ pre, outcome g = .ok) → outcome f ≠ .ok → entries.Nodup →
      (run dd df entries dest outcome).completed = false ∧
      (run dd df entries dest outcome).speedPrinted = none ∧
      (run dd df entries dest outcome).outputs = pre.map (dst_name dd df) ∧
      ∀ g ∈ post, Event.openFile g ∉ (run dd df entries dest outcome).trace) ∧
    ((run "out" "edf" ["a.cbf", "b.cbf", "c.cbf"] .dir
        (fun f => if f = "b.cbf" then .failAtOpen else .ok)).outputs = ["out/a.edf"] ∧
      (run "out" "edf" ["a.cbf", "b.cbf", "c.cbf"] .dir
        (fun f => if f = "b.cbf" then .failAtOpen else .ok)).completed = false ∧
      Event.save "out/a.edf" ∈ (run "out" "edf" ["a.cbf", "b.cbf", "c.cbf"] .dir
        (fun f => if f = "b.cbf" then .failAtOpen else .ok)).trace ∧
      Event.openFile "b.cbf" ∈ (run "out" "edf" ["a.cbf", "b.cbf", "c.cbf"] .dir
        (fun f => if f = "b.cbf" then .failAtOpen else .ok)).trace ∧
      Event.openFile "c.cbf" ∉ (run "out" "edf" ["a.cbf", "b.cbf", "c.cbf"] .dir
        (fun f => if f = "b.cbf" then .failAtOpen else .ok)).trace ∧
      Event.save "out/c.edf" ∉ (run "out" "edf" ["a.cbf", "b.cbf", "c.cbf"] .dir
        (fun f => if f = "b.cbf" then .failAtOpen else .ok)).trace ∧
      (run "out" "edf" ["a.cbf", "b.cbf", "c.cbf"] .dir
        (fun f => if f = "b.cbf" then .failAtOpen else .ok)).speedPrinted = none) := by
  constructor
  · intro dd df entries pre post dest oc f hsplit hpre hf hnd
    have hcomp : loopCompleted oc (discover entries) = false := by
      rw [hsplit]
      exact loopCompleted_fail oc hf pre post
    have hnd2 : (pre ++ f :: post).Nodup := hsplit ▸ nodup_discover hnd
    refine ⟨by rw [run_completed, hcomp], by rw [run_speed, hcomp]; rfl, ?_, ?_⟩
    · rw [run_outputs, hsplit]
      exact loopOutputs_fail dd df oc hf pre post hpre
    · intro g hg hmem
      have hfg : ¬ g = f := by
        have hpost : f ∉ post := (List.nodup_cons.mp (List.nodup_append.mp hnd2).2.1).1
        exact fun he => hpost (he ▸ hg)
      have hgpre : g ∉ pre := fun hc =>
        (List.nodup_append.mp hnd2).2.2 hc (List.mem_cons_of_mem f hg)
      rw [run_trace] at hmem
      rcases List.mem_cons.mp hmem with h1 | h1
      · exact Event.noConfusion h1
      rcases List.mem_cons.mp h1 with h2 | h2
      · exact Event.noConfusion h2
      rcases List.mem_append.mp h2 with h3 | h3
      · rcases List.mem_append.mp h3 with h4 | h4
        · cases hb : osPathExists dest <;> rw [hb] at h4 <;> simp at h4
        · rw [hsplit, loopTrace_fail dd df oc hf pre post hpre] at h4
          rcases List.mem_append.mp h4 with h5 | h5
          · exact hgpre
              ((openedFiles_loopTrace_sublist dd df oc pre).subset
                (mem_openedFiles.mpr h5))
          · refine hfg ?_
            cases hoc : oc f <;> rw [hoc] at h5 <;> simp [fileTrace] at h5 <;> tauto
      · rw [hcomp] at h3
        simp at h3
  · refine ⟨by decide, by decide, by decide, by decide, by decide, by decide, by rfl⟩

theorem failure_aborts_batch_witness :
    (run "out" "edf" ["c.cbf", "a.cbf", "b.cbf"] .dir
      (fun f => if f = "b.cbf" then .failAtConvert else .ok)).completed = false ∧
    (run "out" "edf" ["c.cbf", "a.cbf", "b.cbf"] .dir
      (fun f => if f = "b.cbf" then .failAtConvert else .ok)).speedPrinted = none ∧
    (run "out" "edf" ["c.cbf", "a.cbf", "b.cbf"] .dir
      (fun f => if f = "b.cbf" then .failAtConvert else .ok)).outputs =
      ["a.cbf"].map (dst_name "out" "edf") ∧
    Event.openFile "c.cbf" ∉ (run "out" "edf" ["c.cbf", "a.cbf", "b.cbf"] .dir
      (fun f => if f = "b.cbf" then .failAtConvert else .ok)).trace :=
  have h := failure_aborts_batch.1 "out" "edf" ["c.cbf", "a.cbf", "b.cbf"] ["a.cbf"]
    ["c.cbf"] .dir (fun f => if f = "b.cbf" then .failAtConvert else .ok) "b.cbf"
    (by decide) (by decide) (by decide) (by decide)
  ⟨h.1, h.2.1, h.2.2.1, h.2.2.2 "c.cbf" (by decide)⟩

/-- C7: running the batch twice over the same input set produces the same
set of output files: with a deterministic codec, the second run performs the
identical writes (same destination paths, same contents) — overwriting each
existing destination file with identical content — and leaves the disk
exactly as the first run did. -/
theorem second_run_overwrites_identically (cc : String → String) (d : Disk) :
    runDisk cc (runDisk cc d) = runDisk cc d ∧
    runWrites cc (runDisk cc d) = runWrites cc d := by
  have hdisc : discoverDisk (runDisk cc d) = discoverDisk d := by
    rw [runDisk, runDiskFull]
    exact foldl_diskStep_discover cc _ _ _ _
  have hmatched : ∀ g ∈ discoverDisk d, matchesStarCbf g = true :=
    fun g hg => mem_discoverDisk_matched hg
  have hlook : ∀ g ∈ discoverDisk d, diskLookup g (runDisk cc d) = diskLookup g d := by
    intro g hg
    rw [runDisk, runDiskFull]
    exact foldl_diskStep_lookup cc (hmatched g hg) _ _ _ _
  constructor
  · conv_lhs => rw [runDisk, runDiskFull, hdisc]
    exact foldl_diskStep_noop cc (discoverDisk d) (runDisk cc d)
      (fun f hf => foldl_diskStep_establishes cc (discoverDisk d) hmatched [] [] d f hf)
      [] []
  · conv_lhs => rw [runWrites, runDiskFull, hdisc,
      foldl_diskStep_writes cc _ hmatched [] [] (runDisk cc d)]
    conv_rhs => rw [runWrites, runDiskFull,
      foldl_diskStep_writes cc _ hmatched [] [] d]
    refine congrArg _ (List.map_congr_left fun g hg => ?_)
    rw [hlook g hg]

/-- C8: the file set is enumerated once, before any conversion starts, and
the loop then iterates exactly that enumeration: the sequence of files read
during the run is the pre-computed sorted glob result, and the writes
performed by the conversions never add to, remove from, or reorder what an
enumeration of the source set finds (no output is a glob match). -/
theorem file_set_enumerated_once (cc : String → String) (d : Disk) :
    runReads cc d = discoverDisk d ∧
    discoverDisk (runDisk cc d) = discoverDisk d := by
  constructor
  · rw [runReads, runDiskFull, foldl_diskStep_reads cc _ _ _ _]
    exact List.nil_append _
  · rw [runDisk, runDiskFull]
    exact foldl_diskStep_discover cc _ _ _ _

example : dst_name "edf_format" "edf" "x.cbf" = "edf_format/x.edf" := by decide
example : dst_name "out" "edf" "a.cbf" = "out/a.edf" := by decide
example : discover ["b.cbf", "a.cbf", "readme.txt", ".hidden.cbf", "c.cbf"] =
    ["a.cbf", "b.cbf", "c.cbf"] := by decide
example : splitextRoot "a.b.cbf" = "a.b" := by decide
example : splitextRoot ".cbf" = ".cbf" := by decide
example : printedSpeed 0 = 0 := by norm_num [printedSpeed, hardcodedSeconds]

end FabioConvert
